import Mathlib

/-!
Shallow embedding of the hexdump2 library (src/src/lib.rs): the tolerant
line-oriented reader of hexdump text and the column-aligned writer of
hexdump text, together with theorems about their behaviour.

Strings are modelled as lists of characters (`String.data`); token lengths
use the UTF-8 byte length, matching Rust's `str::len`.  Machine integers
are modelled as `Nat` with explicit truncation (`% 256` for `as u8`,
an explicit `< 2 ^ 64` overflow guard for `u64::from_str_radix`).
Rust panics (modulo by zero, subtraction underflow in debug builds,
`.unwrap()` on `Err`) are modelled by an explicit `Outcome.panic` value.
-/

set_option maxRecDepth 8192

/-- Models `char::to_digit(16)` restricted to radix 16: ASCII `0-9`,
`a-f`, `A-F` map to their value, everything else fails. -/
def toDigit16 (c : Char) : Option Nat :=
  let n := c.toNat
  if 48 ≤ n ∧ n ≤ 57 then some (n - 48)
  else if 97 ≤ n ∧ n ≤ 102 then some (n - 87)
  else if 65 ≤ n ∧ n ≤ 70 then some (n - 55)
  else none

/-- Digit-accumulation loop of `u64::from_str_radix(_, 16)`: checked
multiply-and-add over the digits, failing on a non-digit or on u64
overflow. -/
def parseDigits16 (ds : List Char) : Option Nat :=
  ds.foldl
    (fun acc c =>
      match acc, toDigit16 c with
      | some a, some d =>
          if a * 16 + d < 18446744073709551616 then some (a * 16 + d) else none
      | _, _ => none)
    (some 0)

/-- Models `u64::from_str_radix(s, 16)`: an optional leading `+` sign is
tolerated (a `-` fails for an unsigned target, as does a lone sign or the
empty string), then the digits are parsed. -/
def fromStrRadix16 (l : List Char) : Option Nat :=
  match l with
  | [] => none
  | ['+'] => none
  | ['-'] => none
  | '+' :: ds => parseDigits16 ds
  | '-' :: _ => none
  | ds => parseDigits16 ds

/-- Models `char::len_utf8`. -/
def utf8SizeC (c : Char) : Nat :=
  if c.toNat < 128 then 1
  else if c.toNat < 2048 then 2
  else if c.toNat < 65536 then 3
  else 4

/-- Models `str::len`: the UTF-8 byte length of a word. -/
def utf8Len (l : List Char) : Nat := (l.map utf8SizeC).sum

/-- Models `char::is_whitespace` (the Unicode White_Space property). -/
def rustIsWhitespace (c : Char) : Bool :=
  let n := c.toNat
  (9 ≤ n ∧ n ≤ 13) ∨ n = 32 ∨ n = 133 ∨ n = 160 ∨ n = 5760 ∨
    (8192 ≤ n ∧ n ≤ 8202) ∨ n = 8232 ∨ n = 8233 ∨ n = 8239 ∨ n = 8287 ∨
    n = 12288

/-- Models `str::trim`: drop whitespace from both ends. -/
def trimChars (l : List Char) : List Char :=
  ((l.dropWhile rustIsWhitespace).reverse.dropWhile rustIsWhitespace).reverse

/-- Models `str::split(sep)` for a single separator character: between any
two consecutive separators (and at either end next to one) an empty piece
is produced; the result always has one more piece than there are
separators. -/
def splitChar (sep : Char) : List Char → List (List Char)
  | [] => [[]]
  | c :: rest =>
      if c = sep then [] :: splitChar sep rest
      else
        match splitChar sep rest with
        | t :: ts => (c :: t) :: ts
        | [] => [[c]]

/-- The token-classification loop of `import` over the words of one line
(`wordCount` is `line.split(' ').count()`, `index` the position of the
head word, `hadPadding` the "extra space seen" flag).  Mirrors the Rust
loop: empty word sets the flag; a word at index 0 with byte length > 2 is
an offset and is skipped; a word of byte length 2 is skipped when it is
the last word and the flag is set, otherwise it must parse in base 16 and
its value is pushed (truncated `as u8`) and the flag cleared, a parse
failure aborting the whole conversion; words of any other length are
ignored. -/
def importWords (wordCount : Nat) : Nat → Bool → List (List Char) → Option (List Nat)
  | _, _, [] => some []
  | index, hadPadding, w :: rest =>
    if utf8Len w = 0 then importWords wordCount (index + 1) true rest
    else if index = 0 ∧ 2 < utf8Len w then importWords wordCount (index + 1) hadPadding rest
    else if utf8Len w = 2 then
      if index = wordCount - 1 ∧ hadPadding = true then
        importWords wordCount (index + 1) hadPadding rest
      else
        match fromStrRadix16 w with
        | some v => (importWords wordCount (index + 1) false rest).map (fun bs => v % 256 :: bs)
        | none => none
    else importWords wordCount (index + 1) hadPadding rest

/-- One line of `import`: trim the line, split it on single spaces, and
run the token-classification loop with the flag initially false. -/
def importLine (line : List Char) : Option (List Nat) :=
  let l := trimChars line
  let ws := splitChar ' ' l
  importWords ws.length 0 false ws

/-- All lines of `import`, outcomes concatenated in line order; any line
failure aborts the whole conversion. -/
def importLines : List (List Char) → Option (List Nat)
  | [] => some []
  | l :: ls =>
    match importLine l, importLines ls with
    | some a, some b => some (a ++ b)
    | _, _ => none

/-- `import` on a character list: split the input on line breaks and
process each line. -/
def importChars (data : List Char) : Option (List Nat) :=
  importLines (splitChar '\n' data)

/-- Models `hexdump2::import(data: &str) -> Option<Vec<u8>>`. -/
def import' (data : String) : Option (List Nat) :=
  importChars data.data

/-- Uppercase hexadecimal digit character for a value below 16 (`0-9`,
`A-F`), as produced by Rust's `{:X}` formatting. -/
def hexDigitChar (n : Nat) : Char :=
  if n < 10 then Char.ofNat (48 + n) else Char.ofNat (55 + n)

/-- Fuel-driven uppercase hexadecimal digit expansion (most significant
digit first); the fuel only needs to exceed the value. -/
def hexCharsFuel : Nat → Nat → List Char
  | 0, n => [hexDigitChar n]
  | fuel + 1, n =>
      if n < 16 then [hexDigitChar n]
      else hexCharsFuel fuel (n / 16) ++ [hexDigitChar (n % 16)]

/-- The uppercase hexadecimal digits of `n` (no padding), as produced by
Rust's `{:X}` formatting. -/
def hexChars (n : Nat) : List Char := hexCharsFuel (n + 1) n

/-- Left-pad a digit string with `fill` up to width `w`, as Rust's
width/fill formatting does for numeric values (right-aligned; no
truncation when the value is already wider). -/
def padLeft (fill : Char) (w : Nat) (l : List Char) : List Char :=
  List.replicate (w - l.length) fill ++ l

/-- Models `hexdump2::ExportOptions`. -/
structure ExportOptions where
  per_line : Nat
  with_offsets : Bool
  with_ascii : Bool
deriving DecidableEq

/-- Models `hexdump2::ExportError` (`Fmt(fmt::Error)` / `BadOptions`). -/
inductive ExportError where
  | fmt
  | badOptions
deriving DecidableEq

/-- Result of running exporter code: a value, an `Err` of the export error
type, or a Rust panic (modulo by zero, subtraction underflow,
`.unwrap()` on `Err`). -/
inductive Outcome (α : Type) where
  | ok : α → Outcome α
  | err : ExportError → Outcome α
  | panic : Outcome α
deriving DecidableEq

/-- A caller-supplied `fmt::Write` sink: the text written so far plus a
budget of write calls that still succeed (`none` = writes never fail).
Each `write_str`/`write_char` call consumes one unit of budget; a call
with exhausted budget returns `Err(fmt::Error)`. -/
structure Sink where
  out : List Char
  budget : Option Nat
deriving DecidableEq

/-- One `write_str`/`write_char` call against the sink. -/
def Sink.write (s : Sink) (t : List Char) : Option Sink :=
  match s.budget with
  | none => some { s with out := s.out ++ t }
  | some 0 => none
  | some (n + 1) => some { out := s.out ++ t, budget := some n }

/-- Models `write_offset`: a single `write_str` of the formatted offset,
zero-padded to 4 hex digits when the total byte count fits in 16 bits, to
8 when it fits in 32 bits, and otherwise space-padded to width 16
(Rust's `{:16X}`), always followed by one space. -/
def writeOffset (s : Sink) (index total : Nat) : Option Sink :=
  if total ≤ 65535 then s.write (padLeft '0' 4 (hexChars index) ++ [' '])
  else if total ≤ 4294967295 then s.write (padLeft '0' 8 (hexChars index) ++ [' '])
  else s.write (padLeft ' ' 16 (hexChars index) ++ [' '])

/-- Models `push_ascii`: printable bytes (0x20–0x7E) keep their character,
others become `.`. -/
def pushAscii (ascii : List Char) (v : Nat) : List Char :=
  if 32 ≤ v ∧ v ≤ 126 then ascii ++ [Char.ofNat v] else ascii ++ ['.']

/-- The `for _ in 0..missing_value_count` loop of `write_ascii`: one
`write_str("   ")` per missing byte slot. -/
def writePad (s : Sink) : Nat → Option Sink
  | 0 => some s
  | n + 1 =>
    match s.write [' ', ' ', ' '] with
    | none => none
    | some s1 => writePad s1 n

/-- Models `write_ascii`: computes `per_line - count` (a usize subtraction
that panics on underflow in debug builds), pads three spaces per missing
slot, writes one separating space and then the accumulated gutter; write
failures propagate as `Err`. -/
def writeAscii (s : Sink) (ascii : List Char) (count pl : Nat) : Outcome Sink :=
  if pl < count then .panic
  else
    match writePad s (pl - count) with
    | none => .err .fmt
    | some s1 =>
      match s1.write [' '] with
      | none => .err .fmt
      | some s2 =>
        match s2.write ascii with
        | none => .err .fmt
        | some s3 => .ok s3

/-- The offset block at the top of the `export_to` loop body:
`if options.with_offsets && index % options.per_line == 0` (the modulo
panics when `per_line == 0`) followed by `write_offset(..).unwrap()`
(panicking on a failed write). -/
def offsetStage (opts : ExportOptions) (sink : Sink) (index total : Nat) : Outcome Sink :=
  if opts.with_offsets then
    if opts.per_line = 0 then .panic
    else if index % opts.per_line = 0 then
      match writeOffset sink index total with
      | some s => .ok s
      | none => .panic
    else .ok sink
  else .ok sink

/-- `write_ascii(..).unwrap()`: an `Err` from the gutter writer becomes a
panic. -/
def writeAsciiUnwrap (s : Sink) (ascii : List Char) (count pl : Nat) : Outcome Sink :=
  match writeAscii s ascii count pl with
  | .ok s3 => .ok s3
  | .err _ => .panic
  | .panic => .panic

/-- The conditional gutter flush `if options.with_ascii {
write_ascii(..).unwrap() }` at the end of a line or of the input. -/
def gutterStage (wa : Bool) (s : Sink) (ascii : List Char) (count pl : Nat) : Outcome Sink :=
  if wa then writeAsciiUnwrap s ascii count pl else .ok s

/-- The byte loop of `export_to`, one recursive step per byte.  `total` is
`values.len()`, `index` the position of the head byte, `lineCount` the
bytes already on the current line, `ascii` the pending gutter.  Mirrors
the Rust loop: the offset block, then the two-digit uppercase hex write,
the optional gutter accumulation, and the last-byte / full-line /
separating-space choice. -/
def exportLoop (opts : ExportOptions) (total : Nat) :
    List Nat → Nat → Nat → List Char → Sink → Outcome Sink
  | [], _, _, _, sink => .ok sink
  | v :: rest, index, lineCount, ascii, sink =>
    match offsetStage opts sink index total with
    | .panic => .panic
    | .err e => .err e
    | .ok s1 =>
      match s1.write (padLeft '0' 2 (hexChars v)) with
      | none => .panic
      | some s2 =>
        let lineCount1 := lineCount + 1
        let ascii1 := if opts.with_ascii then pushAscii ascii v else ascii
        if index = total - 1 then
          match gutterStage opts.with_ascii s2 ascii1 lineCount1 opts.per_line with
          | .ok s3 => exportLoop opts total rest (index + 1) lineCount1 ascii1 s3
          | .err e => .err e
          | .panic => .panic
        else if lineCount1 = opts.per_line then
          match gutterStage opts.with_ascii s2 ascii1 lineCount1 opts.per_line with
          | .ok s3 =>
            match s3.write ['\n'] with
            | none => .panic
            | some s4 =>
              exportLoop opts total rest (index + 1) 0
                (if opts.with_ascii then [] else ascii1) s4
          | .err e => .err e
          | .panic => .panic
        else if lineCount1 < opts.per_line then
          match s2.write [' '] with
          | none => .panic
          | some s3 => exportLoop opts total rest (index + 1) lineCount1 ascii1 s3
        else exportLoop opts total rest (index + 1) lineCount1 ascii1 s2

/-- Models `hexdump2::export_to(target, values, options)`. -/
def export_to (sink : Sink) (values : List Nat) (opts : ExportOptions) : Outcome Sink :=
  exportLoop opts values.length values 0 0 [] sink

/-- Models `hexdump2::export(values, options)`: run `export_to` into a
fresh, never-failing string sink and return the accumulated text. -/
def export' (values : List Nat) (opts : ExportOptions) : Outcome (List Char) :=
  match export_to { out := [], budget := none } values opts with
  | .ok s => .ok s.out
  | .err e => .err e
  | .panic => .panic

/-- The offset field `write_offset` emits for a byte at position `i` of a
dump of `total` bytes, including its trailing space. -/
def offsetField (total i : Nat) : List Char :=
  (if total ≤ 65535 then padLeft '0' 4 (hexChars i)
   else if total ≤ 4294967295 then padLeft '0' 8 (hexChars i)
   else padLeft ' ' 16 (hexChars i)) ++ [' ']

/-- Reference description of the text `export_to` produces without the
ASCII gutter: `wo` toggles offsets, `r` is the number of byte slots still
free on the current line (`per_line - line_value_count`). -/
def obodyAux (wo : Bool) (p total : Nat) : List Nat → Nat → Nat → List Char
  | [], _, _ => []
  | [v], index, r =>
      (if wo = true ∧ r = p then offsetField total index else []) ++ padLeft '0' 2 (hexChars v)
  | v :: w :: rest, index, r =>
      (if wo = true ∧ r = p then offsetField total index else []) ++ padLeft '0' 2 (hexChars v) ++
        (if r = 1 then '\n' :: obodyAux wo p total (w :: rest) (index + 1) p
         else ' ' :: obodyAux wo p total (w :: rest) (index + 1) (r - 1))

/-- The per-line grouping of a byte sequence exported with `per_line = p`
when `r` slots are free on the current line; the empty sequence yields a
single empty line. -/
def chunksF (p : Nat) : List Nat → Nat → List (List Nat)
  | [], _ => [[]]
  | [v], _ => [[v]]
  | v :: w :: rest, r =>
      if r = 1 then [v] :: chunksF p (w :: rest) p
      else
        match chunksF p (w :: rest) (r - 1) with
        | c :: cs => (v :: c) :: cs
        | [] => [[v]]

/-- One line of offset-free, gutter-free export text: the bytes as
two-digit uppercase hex pairs joined by single spaces. -/
def hexLine : List Nat → List Char
  | [] => []
  | [v] => padLeft '0' 2 (hexChars v)
  | v :: w :: rest => padLeft '0' 2 (hexChars v) ++ ' ' :: hexLine (w :: rest)

/-- How one word updates the "had extra padding" flag of the `import`
classifier (along a successful run): an empty word sets it, a parsed
two-byte word clears it, every other word leaves it unchanged. -/
def padFlagStep (flag : Bool) (w : List Char) : Bool :=
  if utf8Len w = 0 then true
  else if utf8Len w = 2 ∧ (fromStrRadix16 w).isSome = true then false
  else flag

/-- Structural restatement of the `import` word loop: `first` tracks
"this word is at index 0", and the last word is recognised as the one
with an empty tail rather than by comparing indices. -/
def importWordsS (first flag : Bool) : List (List Char) → Option (List Nat)
  | [] => some []
  | w :: rest =>
    if utf8Len w = 0 then importWordsS false true rest
    else if first = true ∧ 2 < utf8Len w then importWordsS false flag rest
    else if utf8Len w = 2 then
      if rest = [] ∧ flag = true then importWordsS false flag rest
      else
        match fromStrRadix16 w with
        | some v => (importWordsS false false rest).map (fun bs => v % 256 :: bs)
        | none => none
    else importWordsS false flag rest

/-- The `import` word loop as it behaves on a strict prefix of a line's
words: no word is the last one, so the trailing-annotation skip can never
fire. -/
def importWordsNL (first flag : Bool) : List (List Char) → Option (List Nat)
  | [] => some []
  | w :: rest =>
    if utf8Len w = 0 then importWordsNL false true rest
    else if first = true ∧ 2 < utf8Len w then importWordsNL false flag rest
    else if utf8Len w = 2 then
      match fromStrRadix16 w with
      | some v => (importWordsNL false false rest).map (fun bs => v % 256 :: bs)
      | none => none
    else importWordsNL false flag rest

example : import' (String.mk ['0', '0', ' ', '0', '1', ' ', 'f', 'e', ' ', 'f', 'f'])
    = some [0, 1, 254, 255] := by decide

example : importChars ['0', '0', '0', '0', ' ', '0', '0', ' ', '0', '1', ' ', 'f', 'e', ' ', 'f', 'f']
    = some [0, 1, 254, 255] := by decide

example : importChars ['x', 'x', ' ', 'a', 'a', ' ', 'b', 'b'] = none := by decide

example : importChars ['a', 'a', ' ', 'b', 'b'] = some [170, 187] := by decide

example : importChars ['a', 'a', ' ', ' ', 'b', 'b'] = some [170] := by decide

example : importChars [] = some [] := by decide

example : export' [0, 1, 2, 3] ⟨16, false, false⟩
    = .ok ['0', '0', ' ', '0', '1', ' ', '0', '2', ' ', '0', '3'] := by decide

example : export' [0, 1, 2, 3] ⟨2, false, false⟩
    = .ok ['0', '0', ' ', '0', '1', '\n', '0', '2', ' ', '0', '3'] := by decide

example : export' [0, 1, 2, 3] ⟨2, true, false⟩
    = .ok ['0', '0', '0', '0', ' ', '0', '0', ' ', '0', '1', '\n',
           '0', '0', '0', '2', ' ', '0', '2', ' ', '0', '3'] := by decide

example : export' [97, 98, 99, 100, 101, 0] ⟨4, true, true⟩
    = .ok ['0', '0', '0', '0', ' ', '6', '1', ' ', '6', '2', ' ', '6', '3', ' ', '6', '4',
           ' ', 'a', 'b', 'c', 'd', '\n',
           '0', '0', '0', '4', ' ', '6', '5', ' ', '0', '0',
           ' ', ' ', ' ', ' ', ' ', ' ', ' ', 'e', '.'] := by decide

example : export' [65] ⟨0, true, false⟩ = .panic := by decide

example : export' [65] ⟨0, false, true⟩ = .panic := by decide

example : export' [65] ⟨0, false, false⟩ = .ok ['4', '1'] := by decide

example : export_to ⟨[], some 0⟩ [0] ⟨16, false, false⟩ = .panic := by decide

theorem hexCharsFuel_congr :
    ∀ n f1 f2, n < f1 → n < f2 → hexCharsFuel f1 n = hexCharsFuel f2 n := by
  intro n
  induction n using Nat.strong_induction_on with
  | _ n ih =>
    intro f1 f2 h1 h2
    match f1, f2 with
    | g1 + 1, g2 + 1 =>
      by_cases hn : n < 16
      · simp [hexCharsFuel, hn]
      · have hdiv : n / 16 < n := Nat.div_lt_self (by omega) (by omega)
        simp only [hexCharsFuel, hn, if_false]
        rw [ih (n / 16) hdiv g1 g2 (by omega) (by omega)]

theorem hexChars_unfold (n : Nat) :
    hexChars n = if n < 16 then [hexDigitChar n]
                 else hexChars (n / 16) ++ [hexDigitChar (n % 16)] := by
  by_cases hn : n < 16
  · simp [hexChars, hexCharsFuel, hn]
  · simp only [hexChars, hexCharsFuel, hn, if_false]
    rw [hexCharsFuel_congr (n / 16) n (n / 16 + 1) (by omega) (by omega)]
    simp only [hexCharsFuel]

theorem toDigit16_hexDigitChar : ∀ m, m < 16 → toDigit16 (hexDigitChar m) = some m := by
  decide

theorem hexChars_digits :
    ∀ n c, c ∈ hexChars n → (toDigit16 c).isSome = true := by
  intro n
  induction n using Nat.strong_induction_on with
  | _ n ih =>
    intro c hc
    rw [hexChars_unfold] at hc
    by_cases hn : n < 16
    · rw [if_pos hn] at hc
      rcases List.mem_singleton.mp hc with rfl
      rw [toDigit16_hexDigitChar n hn]; rfl
    · rw [if_neg hn] at hc
      rcases List.mem_append.mp hc with h | h
      · exact ih (n / 16) (Nat.div_lt_self (by omega) (by omega)) c h
      · rcases List.mem_singleton.mp h with rfl
        rw [toDigit16_hexDigitChar (n % 16) (Nat.mod_lt n (by omega))]; rfl

theorem hexChars_length_le :
    ∀ k n, 0 < k → n < 16 ^ k → (hexChars n).length ≤ k := by
  intro k n
  induction n using Nat.strong_induction_on generalizing k with
  | _ n ih =>
    intro hk hn
    rw [hexChars_unfold]
    by_cases h16 : n < 16
    · simpa [h16] using hk
    · have hk2 : 2 ≤ k := by
        by_contra hlt
        have : k = 1 := by omega
        subst this
        simp [pow_one] at hn
        omega
      rw [if_neg h16]
      have hdivlt : n / 16 < n := Nat.div_lt_self (by omega) (by omega)
      have hbound : n / 16 < 16 ^ (k - 1) := by
        have : 16 ^ k = 16 ^ (k - 1) * 16 := by
          conv_lhs => rw [show k = k - 1 + 1 by omega]
          rw [pow_succ]
        exact (Nat.div_lt_iff_lt_mul (by omega)).mpr (by omega)
      have := ih (n / 16) hdivlt (k - 1) (by omega) hbound
      simp only [List.length_append, List.length_singleton]
      omega

theorem padLeft_length {l : List Char} {w : Nat} (f : Char) (h : l.length ≤ w) :
    (padLeft f w l).length = w := by
  simp [padLeft]
  omega

theorem hexChars_ne_nil (n : Nat) : hexChars n ≠ [] := by
  rw [hexChars_unfold]
  by_cases h : n < 16 <;> simp [h]

/-- Character-level facts about any character accepted as a hex digit:
it is ASCII (one UTF-8 byte), not whitespace, and its value is below 16. -/
theorem toDigit16_facts {c : Char} {d : Nat} (h : toDigit16 c = some d) :
    d < 16 ∧ 48 ≤ c.toNat ∧ c.toNat ≤ 102 ∧ rustIsWhitespace c = false ∧ utf8SizeC c = 1 := by
  simp only [toDigit16] at h
  have hws : 48 ≤ c.toNat → c.toNat ≤ 102 → rustIsWhitespace c = false := by
    intro hlo hhi
    simp only [rustIsWhitespace, decide_eq_false_iff_not]
    omega
  have hsz : c.toNat ≤ 102 → utf8SizeC c = 1 := by
    intro hhi
    simp only [utf8SizeC, if_pos (show c.toNat < 128 by omega)]
  split_ifs at h with h1 h2 h3
  · injection h with h'
    exact ⟨by omega, by omega, by omega, hws (by omega) (by omega), hsz (by omega)⟩
  · injection h with h'
    exact ⟨by omega, by omega, by omega, hws (by omega) (by omega), hsz (by omega)⟩
  · injection h with h'
    exact ⟨by omega, by omega, by omega, hws (by omega) (by omega), hsz (by omega)⟩

theorem char_ne_of_toNat {c d : Char} (h : c.toNat ≠ d.toNat) : c ≠ d :=
  fun he => h (he ▸ rfl)

theorem splitChar_ne_nil (sep : Char) : ∀ l, ∃ h t, splitChar sep l = h :: t := by
  intro l
  induction l with
  | nil => exact ⟨[], [], rfl⟩
  | cons c rest ih =>
    by_cases hc : c = sep
    · exact ⟨[], splitChar sep rest, by simp [splitChar, hc]⟩
    · obtain ⟨h, t, ht⟩ := ih
      exact ⟨c :: h, t, by simp [splitChar, hc, ht]⟩

theorem splitChar_no_sep (sep : Char) : ∀ l, sep ∉ l → splitChar sep l = [l] := by
  intro l
  induction l with
  | nil => intro; rfl
  | cons c rest ih =>
    intro hmem
    have hc : ¬ c = sep := fun h => hmem (h ▸ List.mem_cons_self c rest)
    have hrest : sep ∉ rest := fun h => hmem (List.mem_cons_of_mem c h)
    simp [splitChar, hc, ih hrest]

theorem splitChar_append_sep (sep : Char) :
    ∀ xs ys, sep ∉ xs → splitChar sep (xs ++ sep :: ys) = xs :: splitChar sep ys := by
  intro xs
  induction xs with
  | nil => intro ys _; simp [splitChar]
  | cons x xs ih =>
    intro ys hmem
    have hx : ¬ x = sep := fun h => hmem (h ▸ List.mem_cons_self x xs)
    have hxs : sep ∉ xs := fun h => hmem (List.mem_cons_of_mem x h)
    simp [splitChar, hx, ih ys hxs]

theorem splitChar_append (sep : Char) :
    ∀ xs ys, sep ∉ xs →
      ∃ h t, splitChar sep ys = h :: t ∧ splitChar sep (xs ++ ys) = (xs ++ h) :: t := by
  intro xs
  induction xs with
  | nil =>
    intro ys _
    obtain ⟨h, t, ht⟩ := splitChar_ne_nil sep ys
    exact ⟨h, t, ht, by simpa using ht⟩
  | cons x xs ih =>
    intro ys hmem
    have hx : ¬ x = sep := fun h => hmem (h ▸ List.mem_cons_self x xs)
    have hxs : sep ∉ xs := fun h => hmem (List.mem_cons_of_mem x h)
    obtain ⟨h, t, ht, heq⟩ := ih ys hxs
    exact ⟨h, t, ht, by simp [splitChar, hx, heq]⟩

/-- Per-byte facts about the two-digit uppercase hex pair of a byte:
its byte length is 2, `u64::from_str_radix(_, 16)` parses it back to the
byte, and none of its characters is whitespace, a space or a newline. -/
theorem hexPair_facts : ∀ v, v < 256 →
    utf8Len (padLeft '0' 2 (hexChars v)) = 2 ∧
    fromStrRadix16 (padLeft '0' 2 (hexChars v)) = some v ∧
    (padLeft '0' 2 (hexChars v)).length = 2 ∧
    ∀ ch ∈ padLeft '0' 2 (hexChars v),
      rustIsWhitespace ch = false ∧ ch ≠ ' ' ∧ ch ≠ '\n' := by
  decide

theorem importWords_eq_S :
    ∀ ws wc i flag, wc = i + ws.length →
      importWords wc i flag ws = importWordsS (decide (i = 0)) flag ws := by
  intro ws
  induction ws with
  | nil => intros; rfl
  | cons w rest ih =>
    intro wc i flag h
    have hlen : wc = (i + 1) + rest.length := by
      simp only [List.length_cons] at h; omega
    have hS : ∀ fl, importWords wc (i + 1) fl rest = importWordsS false fl rest := by
      intro fl
      simpa using ih wc (i + 1) fl hlen
    simp only [importWords, importWordsS, decide_eq_true_eq]
    by_cases h0 : utf8Len w = 0
    · simp [h0, hS]
    · rw [if_neg h0, if_neg h0]
      by_cases hoff : i = 0 ∧ 2 < utf8Len w
      · rw [if_pos hoff, if_pos hoff]
        exact hS flag
      · rw [if_neg hoff, if_neg hoff]
        by_cases h2 : utf8Len w = 2
        · rw [if_pos h2, if_pos h2]
          by_cases hskip : rest = [] ∧ flag = true
          · have hlast : i = wc - 1 ∧ flag = true := by
              have : rest.length = 0 := by rw [hskip.1]; rfl
              exact ⟨by omega, hskip.2⟩
            rw [if_pos hlast, if_pos hskip]
            exact hS flag
          · have hlast : ¬ (i = wc - 1 ∧ flag = true) := by
              intro hcon
              refine hskip ⟨List.length_eq_zero.mp (by omega), hcon.2⟩
            rw [if_neg hlast, if_neg hskip]
            cases hparse : fromStrRadix16 w with
            | some v => rw [hS false]
            | none => rfl
        · rw [if_neg h2, if_neg h2]
          exact hS flag

theorem importWords_eq_NL :
    ∀ ws wc i flag, i + ws.length < wc →
      importWords wc i flag ws = importWordsNL (decide (i = 0)) flag ws := by
  intro ws
  induction ws with
  | nil => intros; rfl
  | cons w rest ih =>
    intro wc i flag h
    have hlen : (i + 1) + rest.length < wc := by
      simp only [List.length_cons] at h; omega
    have hN : ∀ fl, importWords wc (i + 1) fl rest = importWordsNL false fl rest := by
      intro fl
      simpa using ih wc (i + 1) fl hlen
    simp only [importWords, importWordsNL, decide_eq_true_eq]
    by_cases h0 : utf8Len w = 0
    · simp [h0, hN]
    · rw [if_neg h0, if_neg h0]
      by_cases hoff : i = 0 ∧ 2 < utf8Len w
      · rw [if_pos hoff, if_pos hoff]
        exact hN flag
      · rw [if_neg hoff, if_neg hoff]
        by_cases h2 : utf8Len w = 2
        · rw [if_pos h2, if_pos h2]
          have hlast : ¬ (i = wc - 1 ∧ flag = true) := by
            intro hcon
            have : rest.length + 1 ≥ 1 := by omega
            simp only [List.length_cons] at h
            omega
          rw [if_neg hlast]
          cases hparse : fromStrRadix16 w with
          | some v => rw [hN false]
          | none => rfl
        · rw [if_neg h2, if_neg h2]
          exact hN flag

theorem importWordsS_cons (first flag : Bool) (w : List Char) (rest : List (List Char)) :
    importWordsS first flag (w :: rest) =
      if utf8Len w = 0 then importWordsS false true rest
      else if first = true ∧ 2 < utf8Len w then importWordsS false flag rest
      else if utf8Len w = 2 then
        if rest = [] ∧ flag = true then importWordsS false flag rest
        else
          match fromStrRadix16 w with
          | some v => (importWordsS false false rest).map (fun bs => v % 256 :: bs)
          | none => none
      else importWordsS false flag rest := rfl

theorem importWordsNL_cons (first flag : Bool) (w : List Char) (rest : List (List Char)) :
    importWordsNL first flag (w :: rest) =
      if utf8Len w = 0 then importWordsNL false true rest
      else if first = true ∧ 2 < utf8Len w then importWordsNL false flag rest
      else if utf8Len w = 2 then
        match fromStrRadix16 w with
        | some v => (importWordsNL false false rest).map (fun bs => v % 256 :: bs)
        | none => none
      else importWordsNL false flag rest := rfl

/-- When the last word of a line does not have byte length 2, the padding
flag is never consulted, so its value is irrelevant. -/
theorem importWordsS_flag_irrel (w : List Char) (hw : ¬ utf8Len w = 2) :
    ∀ zs first f1 f2, importWordsS first f1 (zs ++ [w]) = importWordsS first f2 (zs ++ [w]) := by
  intro zs
  induction zs with
  | nil =>
    intro first f1 f2
    rw [List.nil_append, importWordsS_cons, importWordsS_cons]
    by_cases h0 : utf8Len w = 0
    · rw [if_pos h0, if_pos h0]
    · rw [if_neg h0, if_neg h0]
      by_cases hoff : first = true ∧ 2 < utf8Len w
      · rw [if_pos hoff, if_pos hoff]
        rfl
      · rw [if_neg hoff, if_neg hoff, if_neg hw, if_neg hw]
        rfl
  | cons z zs ih =>
    intro first f1 f2
    rw [List.cons_append, importWordsS_cons, importWordsS_cons]
    by_cases h0 : utf8Len z = 0
    · rw [if_pos h0, if_pos h0]
    · rw [if_neg h0, if_neg h0]
      by_cases hoff : first = true ∧ 2 < utf8Len z
      · rw [if_pos hoff, if_pos hoff]
        exact ih false f1 f2
      · rw [if_neg hoff, if_neg hoff]
        by_cases h2 : utf8Len z = 2
        · rw [if_pos h2, if_pos h2]
          have hne1 : ¬ (zs ++ [w] = [] ∧ f1 = true) := by
            intro hcon
            exact absurd hcon.1 (by simp)
          have hne2 : ¬ (zs ++ [w] = [] ∧ f2 = true) := by
            intro hcon
            exact absurd hcon.1 (by simp)
          rw [if_neg hne1, if_neg hne2]
        · rw [if_neg h2, if_neg h2]
          exact ih false f1 f2

/-- Consecutive empty words are consumed, leaving the padding flag set. -/
theorem importWordsS_replicate_nil :
    ∀ k rest (first flag : Bool), 1 ≤ k →
      importWordsS first flag (List.replicate k [] ++ rest) = importWordsS false true rest := by
  intro k
  induction k with
  | zero => intro _ _ _ h; omega
  | succ k ih =>
    intro rest first flag _
    rw [List.replicate_succ, List.cons_append]
    have h0 : utf8Len ([] : List Char) = 0 := rfl
    simp only [importWordsS, h0, if_pos rfl]
    cases k with
    | zero => rfl
    | succ k => exact ih rest false true (by omega)

/-- Inserting empty words just before a tail whose last word does not have
byte length 2 changes nothing. -/
theorem importWordsS_pad_head (k : Nat) (ws2 : List (List Char)) (w : List Char)
    (hw : ¬ utf8Len w = 2) (flag : Bool) :
    importWordsS false flag (List.replicate k [] ++ (ws2 ++ [w])) =
    importWordsS false flag (ws2 ++ [w]) := by
  cases k with
  | zero => rfl
  | succ k =>
    rw [importWordsS_replicate_nil (k + 1) (ws2 ++ [w]) false flag (by omega)]
    exact importWordsS_flag_irrel w hw ws2 false true flag

/-- Inserting extra empty words at an interior position (after a nonempty
prefix `u`) of a line whose last word does not have byte length 2 leaves
the structural word loop unchanged. -/
theorem importWordsS_insert_pad (k : Nat) (ws2 : List (List Char)) (w : List Char)
    (hw : ¬ utf8Len w = 2) :
    ∀ u (first flag : Bool), u ≠ [] →
      importWordsS first flag (u ++ (List.replicate k [] ++ (ws2 ++ [w]))) =
      importWordsS first flag (u ++ (ws2 ++ [w])) := by
  intro u
  induction u with
  | nil => intro _ _ h; exact absurd rfl h
  | cons a u ih =>
    intro first flag _
    have tail_eq : ∀ fl : Bool,
        importWordsS false fl (u ++ (List.replicate k [] ++ (ws2 ++ [w]))) =
        importWordsS false fl (u ++ (ws2 ++ [w])) := by
      intro fl
      cases u with
      | nil => simpa using importWordsS_pad_head k ws2 w hw fl
      | cons b u' => exact ih false fl (by simp)
    rw [List.cons_append, List.cons_append, importWordsS_cons, importWordsS_cons]
    by_cases h0 : utf8Len a = 0
    · rw [if_pos h0, if_pos h0]
      exact tail_eq true
    · rw [if_neg h0, if_neg h0]
      by_cases hoff : first = true ∧ 2 < utf8Len a
      · rw [if_pos hoff, if_pos hoff]
        exact tail_eq flag
      · rw [if_neg hoff, if_neg hoff]
        by_cases h2 : utf8Len a = 2
        · rw [if_pos h2, if_pos h2]
          have hne1 : ¬ (u ++ (List.replicate k [] ++ (ws2 ++ [w])) = [] ∧ flag = true) := by
            intro hcon
            have := hcon.1
            simp [List.append_eq_nil] at this
          have hne2 : ¬ (u ++ (ws2 ++ [w]) = [] ∧ flag = true) := by
            intro hcon
            have := hcon.1
            simp [List.append_eq_nil] at this
          rw [if_neg hne1, if_neg hne2]
          cases hparse : fromStrRadix16 a with
          | some v => rw [tail_eq false]
          | none => rfl
        · rw [if_neg h2, if_neg h2]
          exact tail_eq flag

/-- Full characterisation of a line ending in a two-byte word `t`: if the
padding flag (tracked by `padFlagStep` over the earlier words) is set
when `t` is reached, `t` is skipped; otherwise `t` must parse and its
byte is appended. -/
theorem importWordsS_snoc (t : List Char) (ht : utf8Len t = 2) :
    ∀ ws (first flag : Bool),
      importWordsS first flag (ws ++ [t]) =
        if ws.foldl padFlagStep flag = true then importWordsNL first flag ws
        else
          match fromStrRadix16 t with
          | some v => (importWordsNL first flag ws).map (fun bs => bs ++ [v % 256])
          | none => none := by
  intro ws
  induction ws with
  | nil =>
    intro first flag
    have h0 : ¬ utf8Len t = 0 := by omega
    cases flag <;> cases hpt : fromStrRadix16 t <;>
      simp [importWordsS_cons, importWordsS, importWordsNL, h0, ht, hpt]
  | cons u ws ih =>
    intro first flag
    rw [List.cons_append, importWordsS_cons, importWordsNL_cons, List.foldl_cons]
    by_cases h0 : utf8Len u = 0
    · rw [if_pos h0, if_pos h0]
      have hp : padFlagStep flag u = true := by simp [padFlagStep, h0]
      rw [hp]
      exact ih false true
    · rw [if_neg h0, if_neg h0]
      by_cases hoff : first = true ∧ 2 < utf8Len u
      · rw [if_pos hoff, if_pos hoff]
        have hp : padFlagStep flag u = flag := by
          have : ¬ (utf8Len u = 2 ∧ (fromStrRadix16 u).isSome = true) := by
            intro hcon; omega
          simp [padFlagStep, h0, this]
        rw [hp]
        exact ih false flag
      · rw [if_neg hoff, if_neg hoff]
        by_cases h2 : utf8Len u = 2
        · rw [if_pos h2, if_pos h2]
          have hne : ¬ (ws ++ [t] = [] ∧ flag = true) := by
            intro hcon
            exact absurd hcon.1 (by simp)
          rw [if_neg hne]
          cases hparse : fromStrRadix16 u with
          | some v =>
            have hp : padFlagStep flag u = false := by
              simp [padFlagStep, h0, h2, hparse]
            rw [hp, ih false false]
            cases hfold : List.foldl padFlagStep false ws with
            | true => simp
            | false =>
              cases hpt : fromStrRadix16 t with
              | some tv =>
                simp only [if_neg (show ¬ false = true by simp), Option.map_map]
                congr 1
              | none => simp
          | none =>
            have hp : padFlagStep flag u = flag := by
              simp [padFlagStep, h0, h2, hparse]
            rw [hp]
            cases hfold : List.foldl padFlagStep flag ws with
            | true => simp
            | false =>
              cases hpt : fromStrRadix16 t with
              | some tv => simp
              | none => simp
        · rw [if_neg h2, if_neg h2]
          have hp : padFlagStep flag u = flag := by
            have : ¬ (utf8Len u = 2 ∧ (fromStrRadix16 u).isSome = true) := by
              intro hcon; omega
            simp [padFlagStep, h0, this]
          rw [hp]
          exact ih false flag

theorem importWords_cons (wc i : Nat) (flag : Bool) (w : List Char) (rest : List (List Char)) :
    importWords wc i flag (w :: rest) =
      if utf8Len w = 0 then importWords wc (i + 1) true rest
      else if i = 0 ∧ 2 < utf8Len w then importWords wc (i + 1) flag rest
      else if utf8Len w = 2 then
        if i = wc - 1 ∧ flag = true then importWords wc (i + 1) flag rest
        else
          match fromStrRadix16 w with
          | some v => (importWords wc (i + 1) false rest).map (fun bs => v % 256 :: bs)
          | none => none
      else importWords wc (i + 1) flag rest := rfl

theorem utf8SizeC_pos (c : Char) : 1 ≤ utf8SizeC c := by
  simp only [utf8SizeC]
  split_ifs <;> omega

theorem utf8Len_cons_pos (c : Char) (l : List Char) : 1 ≤ utf8Len (c :: l) := by
  have := utf8SizeC_pos c
  simp only [utf8Len, List.map_cons, List.sum_cons]
  omega

/-- A two-byte word that fails the base-16 parse and is not the last word
of its line aborts the word loop. -/
theorem importWords_bad_notlast :
    ∀ ws1 (w : List Char) ws2 wc i (flag : Bool),
      wc = i + (ws1 ++ w :: ws2).length → utf8Len w = 2 → fromStrRadix16 w = none →
      ws2 ≠ [] → importWords wc i flag (ws1 ++ w :: ws2) = none := by
  intro ws1
  induction ws1 with
  | nil =>
    intro w ws2 wc i flag hwc h2 hp hne
    have hlen2 : 1 ≤ ws2.length := by
      cases ws2 with
      | nil => exact absurd rfl hne
      | cons _ _ => simp
    simp only [List.nil_append, List.length_cons] at hwc
    rw [List.nil_append, importWords_cons]
    have h0 : ¬ utf8Len w = 0 := by omega
    have hoff : ¬ (i = 0 ∧ 2 < utf8Len w) := by intro hcon; omega
    rw [if_neg h0, if_neg hoff, if_pos h2]
    have hlast : ¬ (i = wc - 1 ∧ flag = true) := by
      intro hcon
      omega
    rw [if_neg hlast, hp]
  | cons a ws1 ih =>
    intro w ws2 wc i flag hwc h2 hp hne
    simp only [List.cons_append, List.length_cons] at hwc
    have hwc' : wc = (i + 1) + (ws1 ++ w :: ws2).length := by
      simp only [List.length_append, List.length_cons] at hwc ⊢
      omega
    have htail : ∀ fl : Bool, importWords wc (i + 1) fl (ws1 ++ w :: ws2) = none := by
      intro fl
      exact ih w ws2 wc (i + 1) fl hwc' h2 hp hne
    rw [List.cons_append, importWords_cons]
    by_cases h0 : utf8Len a = 0
    · rw [if_pos h0]
      exact htail true
    · rw [if_neg h0]
      by_cases hoff : i = 0 ∧ 2 < utf8Len a
      · rw [if_pos hoff]
        exact htail flag
      · rw [if_neg hoff]
        by_cases h2a : utf8Len a = 2
        · rw [if_pos h2a]
          by_cases hlast : i = wc - 1 ∧ flag = true
          · rw [if_pos hlast]
            exact htail flag
          · rw [if_neg hlast]
            cases hparse : fromStrRadix16 a with
            | some v => rw [htail false]; rfl
            | none => rfl
        · rw [if_neg h2a]
          exact htail flag

/-- A two-byte word that fails the base-16 parse as the last word of a
line with no empty words before it aborts the word loop: the padding flag
stays false, so the trailing-annotation excuse cannot fire. -/
theorem importWords_bad_last_noempty :
    ∀ ws1 (w : List Char) wc i,
      wc = i + ws1.length + 1 → utf8Len w = 2 → fromStrRadix16 w = none →
      (∀ u ∈ ws1, u ≠ []) → importWords wc i false (ws1 ++ [w]) = none := by
  intro ws1
  induction ws1 with
  | nil =>
    intro w wc i hwc h2 hp _
    rw [List.nil_append, importWords_cons]
    have h0 : ¬ utf8Len w = 0 := by omega
    have hoff : ¬ (i = 0 ∧ 2 < utf8Len w) := by intro hcon; omega
    rw [if_neg h0, if_neg hoff, if_pos h2]
    have hlast : ¬ (i = wc - 1 ∧ false = true) := by
      intro hcon
      exact absurd hcon.2 (by simp)
    rw [if_neg hlast, hp]
  | cons a ws1 ih =>
    intro w wc i hwc h2 hp hnem
    simp only [List.length_cons] at hwc
    have hwc' : wc = (i + 1) + ws1.length + 1 := by omega
    have ha : a ≠ [] := hnem a (List.mem_cons_self a ws1)
    have h0 : ¬ utf8Len a = 0 := by
      cases a with
      | nil => exact absurd rfl ha
      | cons c l =>
        have := utf8Len_cons_pos c l
        omega
    have htail : importWords wc (i + 1) false (ws1 ++ [w]) = none :=
      ih w wc (i + 1) hwc' h2 hp (fun u hu => hnem u (List.mem_cons_of_mem a hu))
    rw [List.cons_append, importWords_cons, if_neg h0]
    by_cases hoff : i = 0 ∧ 2 < utf8Len a
    · rw [if_pos hoff]
      exact htail
    · rw [if_neg hoff]
      by_cases h2a : utf8Len a = 2
      · rw [if_pos h2a]
        have hlast : ¬ (i = wc - 1 ∧ false = true) := by
          intro hcon
          exact absurd hcon.2 (by simp)
        rw [if_neg hlast]
        cases hparse : fromStrRadix16 a with
        | some v => rw [htail]; rfl
        | none => rfl
      · rw [if_neg h2a]
        exact htail

theorem importLines_none_of_mem :
    ∀ ls line, line ∈ ls → importLine line = none → importLines ls = none := by
  intro ls
  induction ls with
  | nil => intro line h _; exact absurd h (List.not_mem_nil line)
  | cons l ls ih =>
    intro line hmem hnone
    rcases List.mem_cons.mp hmem with rfl | hmem'
    · simp [importLines, hnone]
    · rw [show importLines (l :: ls)
            = match importLine l, importLines ls with
              | some a, some b => some (a ++ b)
              | _, _ => none from rfl]
      rw [ih line hmem' hnone]
      cases importLine l <;> rfl

theorem mod_succ_eq_zero {i p : Nat} (h : i % p + 1 = p) : (i + 1) % p = 0 := by
  rw [show i + 1 = p * (i / p) + (i % p + 1) by
        have := Nat.div_add_mod i p; omega,
      Nat.mul_add_mod, h, Nat.mod_self]

theorem mod_succ_eq {i p : Nat} (hp : 0 < p) (h : ¬ i % p + 1 = p) : (i + 1) % p = i % p + 1 := by
  rw [show i + 1 = p * (i / p) + (i % p + 1) by
        have := Nat.div_add_mod i p; omega,
      Nat.mul_add_mod]
  have := Nat.mod_lt i hp
  exact Nat.mod_eq_of_lt (by omega)

theorem Sink.write_unbounded (out t : List Char) :
    Sink.write ⟨out, none⟩ t = some ⟨out ++ t, none⟩ := rfl

theorem writeOffset_unbounded (out : List Char) (i total : Nat) :
    writeOffset ⟨out, none⟩ i total = some ⟨out ++ offsetField total i, none⟩ := by
  unfold writeOffset offsetField
  split_ifs <;> rfl

/-- With offsets enabled and `per_line == 0`, the very first loop step
evaluates `index % 0` and panics. -/
theorem exportLoop_offsets_zero (b : Bool) (total i lc : Nat) (v : Nat) (rest : List Nat)
    (ascii : List Char) (sink : Sink) :
    exportLoop ⟨0, true, b⟩ total (v :: rest) i lc ascii sink = .panic := rfl

/-- `export_to` never returns an `Err` value: every failure path is an
`.unwrap()` panic, so neither `ExportError::Fmt` nor
`ExportError::BadOptions` is ever produced. -/
theorem offsetStage_ne_err (opts : ExportOptions) (sink : Sink) (i total : Nat)
    (e : ExportError) : offsetStage opts sink i total ≠ .err e := by
  unfold offsetStage
  split_ifs <;>
    first
      | (cases writeOffset sink i total <;> simp)
      | simp

theorem gutterStage_ne_err (wa : Bool) (s : Sink) (ascii : List Char) (count pl : Nat)
    (e : ExportError) : gutterStage wa s ascii count pl ≠ .err e := by
  unfold gutterStage writeAsciiUnwrap
  split_ifs
  · cases writeAscii s ascii count pl <;> simp
  · simp

theorem exportLoop_ne_err (opts : ExportOptions) (total : Nat) :
    ∀ vs i lc ascii sink e, exportLoop opts total vs i lc ascii sink ≠ .err e := by
  intro vs
  induction vs with
  | nil =>
    intro i lc ascii sink e h
    exact Outcome.noConfusion h
  | cons v rest ih =>
    intro i lc ascii sink e h
    simp only [exportLoop] at h
    cases ho : offsetStage opts sink i total with
    | panic => rw [ho] at h; dsimp only at h; exact Outcome.noConfusion h
    | err e' => exact offsetStage_ne_err opts sink i total e' ho
    | ok s1 =>
      rw [ho] at h
      dsimp only at h
      cases hw : s1.write (padLeft '0' 2 (hexChars v)) with
      | none =>
        rw [hw] at h
        dsimp only at h
        exact Outcome.noConfusion h
      | some s2 =>
        rw [hw] at h
        dsimp only at h
        cases hg : gutterStage opts.with_ascii s2
            (if opts.with_ascii = true then pushAscii ascii v else ascii) (lc + 1)
            opts.per_line with
        | panic =>
          rw [hg] at h
          dsimp only at h
          split_ifs at h <;>
            first
              | exact Outcome.noConfusion h
              | exact ih _ _ _ _ _ h
              | (cases hw2 : s2.write [' '] with
                 | none => rw [hw2] at h; exact Outcome.noConfusion h
                 | some s3 => rw [hw2] at h; exact ih _ _ _ _ _ h)
        | err e' => exact gutterStage_ne_err _ _ _ _ _ e' hg
        | ok s3 =>
          rw [hg] at h
          dsimp only at h
          split_ifs at h <;>
            first
              | exact Outcome.noConfusion h
              | exact ih _ _ _ _ _ h
              | (cases hw2 : s3.write ['\n'] with
                 | none => rw [hw2] at h; exact Outcome.noConfusion h
                 | some s4 => rw [hw2] at h; exact ih _ _ _ _ _ h)
              | (cases hw2 : s2.write [' '] with
                 | none => rw [hw2] at h; exact Outcome.noConfusion h
                 | some s5 => rw [hw2] at h; exact ih _ _ _ _ _ h)

theorem gutterStage_zero_panic (s : Sink) (ascii : List Char) (lc : Nat) :
    gutterStage true s ascii (lc + 1) 0 = .panic := by
  unfold gutterStage writeAsciiUnwrap writeAscii
  rw [if_pos rfl, if_pos (by omega)]

/-- With the ASCII gutter enabled and `per_line == 0`, the gutter flush at
the last byte computes `0 - count` and panics. -/
theorem exportLoop_ascii_zero (total : Nat) :
    ∀ rest (v : Nat) i lc ascii out, i + (v :: rest).length = total →
      exportLoop ⟨0, false, true⟩ total (v :: rest) i lc ascii ⟨out, none⟩ = .panic := by
  intro rest
  induction rest with
  | nil =>
    intro v i lc ascii out hinv
    have hlast : i = total - 1 := by
      simp only [List.length_cons, List.length_nil] at hinv
      omega
    simp only [exportLoop, offsetStage]
    rw [if_neg (by simp)]
    dsimp only
    rw [Sink.write_unbounded]
    dsimp only
    rw [if_pos hlast, gutterStage_zero_panic]
  | cons w rest ih =>
    intro v i lc ascii out hinv
    have hnotlast : ¬ i = total - 1 := by
      simp only [List.length_cons] at hinv
      omega
    simp only [exportLoop, offsetStage]
    rw [if_neg (by simp)]
    dsimp only
    rw [Sink.write_unbounded]
    dsimp only
    rw [if_neg hnotlast]
    rw [if_neg (show ¬ lc + 1 = (⟨0, false, true⟩ : ExportOptions).per_line by
          simp)]
    rw [if_neg (show ¬ lc + 1 < (⟨0, false, true⟩ : ExportOptions).per_line by
          simp)]
    exact ih w (i + 1) (lc + 1) _ _ (by simp only [List.length_cons] at hinv ⊢; omega)

theorem gutterStage_false (s : Sink) (ascii : List Char) (count pl : Nat) :
    gutterStage false s ascii count pl = .ok s := rfl

/-- Characterisation of the export loop without the ASCII gutter against
an unbounded sink: it succeeds and appends exactly the reference body
`obodyAux`.  The loop invariant ties the line counter to `index % per_line`. -/
theorem exportLoop_no_ascii (p : Nat) (wo : Bool) (total : Nat) (hp : 0 < p) :
    ∀ vs i ascii out, i + vs.length = total →
      exportLoop ⟨p, wo, false⟩ total vs i (i % p) ascii ⟨out, none⟩ =
        .ok ⟨out ++ obodyAux wo p total vs i (p - i % p), none⟩ := by
  intro vs
  induction vs with
  | nil =>
    intro i ascii out _
    simp [exportLoop, obodyAux]
  | cons v rest ih =>
    intro i ascii out hinv
    have hmlt : i % p < p := Nat.mod_lt i hp
    have hoff : offsetStage ⟨p, wo, false⟩ ⟨out, none⟩ i total =
        .ok ⟨out ++ (if wo = true ∧ p - i % p = p then offsetField total i else []), none⟩ := by
      unfold offsetStage
      cases wo with
      | false => simp
      | true =>
        rw [if_pos rfl, if_neg (show ¬ p = 0 by omega)]
        by_cases hz : i % p = 0
        · rw [if_pos hz, writeOffset_unbounded]
          have hr : p - i % p = p := by omega
          simp [hr]
        · rw [if_neg hz]
          have hr : ¬ (p - i % p = p) := by omega
          simp [hr]
    simp only [exportLoop]
    rw [hoff]
    dsimp only
    rw [Sink.write_unbounded]
    dsimp only
    cases rest with
    | nil =>
      have hlast : i = total - 1 := by
        simp only [List.length_cons, List.length_nil] at hinv
        omega
      rw [if_pos hlast, gutterStage_false]
      dsimp only [exportLoop]
      simp [obodyAux, List.append_assoc]
    | cons w rest' =>
      have hnotlast : ¬ i = total - 1 := by
        simp only [List.length_cons] at hinv
        omega
      have hinv' : (i + 1) + (w :: rest').length = total := by
        simp only [List.length_cons] at hinv ⊢
        omega
      rw [if_neg hnotlast]
      by_cases hline : i % p + 1 = p
      · rw [if_pos hline, gutterStage_false]
        dsimp only
        rw [Sink.write_unbounded]
        dsimp only
        simp only [Bool.false_eq_true, if_false]
        have ih' := ih (i + 1) ascii
          (out ++ (if wo = true ∧ p - i % p = p then offsetField total i else [])
            ++ padLeft '0' 2 (hexChars v) ++ ['\n']) hinv'
        rw [mod_succ_eq_zero hline] at ih'
        rw [ih']
        have hr1 : p - i % p = 1 := by omega
        simp [obodyAux, hr1, List.append_assoc, Nat.sub_zero]
      · have hlt : i % p + 1 < p := by omega
        rw [if_neg hline, if_pos hlt]
        rw [Sink.write_unbounded]
        dsimp only
        simp only [Bool.false_eq_true, if_false]
        have ih' := ih (i + 1) ascii
          (out ++ (if wo = true ∧ p - i % p = p then offsetField total i else [])
            ++ padLeft '0' 2 (hexChars v) ++ [' ']) hinv'
        rw [mod_succ_eq hp hline] at ih'
        rw [ih']
        have hr1 : ¬ (p - i % p = 1) := by omega
        have hrr : p - i % p - 1 = p - (i % p + 1) := by omega
        simp [obodyAux, hr1, hrr, List.append_assoc]

theorem export_to_no_ascii (p : Nat) (wo : Bool) (vs : List Nat) (hp : 0 < p) :
    export_to ⟨[], none⟩ vs ⟨p, wo, false⟩ =
      .ok ⟨obodyAux wo p vs.length vs 0 p, none⟩ := by
  unfold export_to
  have h := exportLoop_no_ascii p wo vs.length hp vs 0 [] [] (by simp)
  rw [Nat.zero_mod, Nat.sub_zero] at h
  simpa using h

theorem obodyAux_single (wo : Bool) (p total v i r : Nat) :
    obodyAux wo p total [v] i r =
      (if wo = true ∧ r = p then offsetField total i else []) ++ padLeft '0' 2 (hexChars v) := rfl

theorem obodyAux_cons2 (wo : Bool) (p total v w i r : Nat) (rest : List Nat) :
    obodyAux wo p total (v :: w :: rest) i r =
      (if wo = true ∧ r = p then offsetField total i else []) ++ padLeft '0' 2 (hexChars v) ++
        (if r = 1 then '\n' :: obodyAux wo p total (w :: rest) (i + 1) p
         else ' ' :: obodyAux wo p total (w :: rest) (i + 1) (r - 1)) := rfl

theorem not_nl_hexPair (v : Nat) : '\n' ∉ padLeft '0' 2 (hexChars v) := by
  intro h
  rcases List.mem_append.mp h with h | h
  · exact absurd (List.eq_of_mem_replicate h) (by decide)
  · exact absurd (hexChars_digits v '\n' h) (by decide)

theorem not_sp_hexPair (v : Nat) : ' ' ∉ padLeft '0' 2 (hexChars v) := by
  intro h
  rcases List.mem_append.mp h with h | h
  · exact absurd (List.eq_of_mem_replicate h) (by decide)
  · exact absurd (hexChars_digits v ' ' h) (by decide)

theorem not_nl_offsetField (total i : Nat) : '\n' ∉ offsetField total i := by
  intro h
  unfold offsetField at h
  rcases List.mem_append.mp h with h | h
  · split_ifs at h <;>
      rcases List.mem_append.mp h with h | h <;>
        first
          | exact absurd (List.eq_of_mem_replicate h) (by decide)
          | exact absurd (hexChars_digits i '\n' h) (by decide)
  · exact absurd (List.mem_singleton.mp h) (by decide)

theorem not_nl_lineHead (c : Prop) [Decidable c] (total i v : Nat) :
    '\n' ∉ (if c then offsetField total i else []) ++ padLeft '0' 2 (hexChars v) := by
  intro h
  rcases List.mem_append.mp h with h | h
  · split_ifs at h
    · exact not_nl_offsetField total i h
    · exact absurd h (List.not_mem_nil _)
  · exact not_nl_hexPair v h

/-- Line structure of an offsets-enabled, gutter-free export body: the
split on line breaks is nonempty, every line after the first starts with
an offset field, and when the body begins at a line start so does the
first line. -/
theorem obody_lines (p total : Nat) (hp : 0 < p) :
    ∀ vs i r, vs ≠ [] → 1 ≤ r → r ≤ p → i + vs.length = total →
      ∃ L Ls, splitChar '\n' (obodyAux true p total vs i r) = L :: Ls ∧
        (∀ l ∈ Ls, ∃ j, j < total ∧ ∃ t, offsetField total j ++ t = l) ∧
        (r = p → ∃ j, j < total ∧ ∃ t, offsetField total j ++ t = L) := by
  intro vs
  induction vs with
  | nil => intro i r h; exact absurd rfl h
  | cons v rest ih =>
    intro i r _ hr1 hrp hinv
    have hibound : i < total := by
      simp only [List.length_cons] at hinv
      omega
    cases rest with
    | nil =>
      rw [obodyAux_single]
      rw [splitChar_no_sep '\n' _ (not_nl_lineHead _ total i v)]
      refine ⟨_, [], rfl, by simp, ?_⟩
      intro hrP
      refine ⟨i, hibound, padLeft '0' 2 (hexChars v), ?_⟩
      rw [if_pos ⟨rfl, hrP⟩]
    | cons w rest' =>
      have hinv' : (i + 1) + (w :: rest').length = total := by
        simp only [List.length_cons] at hinv ⊢
        omega
      rw [obodyAux_cons2]
      by_cases hr : r = 1
      · rw [if_pos hr]
        obtain ⟨L', Ls', hsplit', htail', hhead'⟩ :=
          ih (i + 1) p (by simp) hp (le_refl p) hinv'
        rw [splitChar_append_sep '\n' _ _ (not_nl_lineHead _ total i v), hsplit']
        refine ⟨_, L' :: Ls', rfl, ?_, ?_⟩
        · intro l hl
          rcases List.mem_cons.mp hl with rfl | hl'
          · exact hhead' rfl
          · exact htail' l hl'
        · intro hrP
          refine ⟨i, hibound, padLeft '0' 2 (hexChars v), ?_⟩
          rw [if_pos ⟨rfl, hrP⟩]
      · rw [if_neg hr]
        obtain ⟨L', Ls', hsplit', htail', hhead'⟩ :=
          ih (i + 1) (r - 1) (by simp) (by omega) (by omega) hinv'
        have hshape :
            (if true = true ∧ r = p then offsetField total i else []) ++
                padLeft '0' 2 (hexChars v) ++
                (' ' :: obodyAux true p total (w :: rest') (i + 1) (r - 1)) =
              ((if true = true ∧ r = p then offsetField total i else []) ++
                padLeft '0' 2 (hexChars v) ++ [' ']) ++
                obodyAux true p total (w :: rest') (i + 1) (r - 1) := by
          simp [List.append_assoc]
        rw [hshape]
        have hnons : '\n' ∉
            (if true = true ∧ r = p then offsetField total i else []) ++
              padLeft '0' 2 (hexChars v) ++ [' '] := by
          intro hm
          rcases List.mem_append.mp hm with hm | hm
          · exact not_nl_lineHead _ total i v hm
          · exact absurd (List.mem_singleton.mp hm) (by decide)
        obtain ⟨h1, t1, hsplit1, heq1⟩ :=
          splitChar_append '\n' _ (obodyAux true p total (w :: rest') (i + 1) (r - 1)) hnons
        rw [heq1]
        rw [hsplit'] at hsplit1
        injection hsplit1 with hh ht
        subst hh
        subst ht
        refine ⟨_, Ls', rfl, htail', ?_⟩
        intro hrP
        refine ⟨i, hibound, padLeft '0' 2 (hexChars v) ++ ' ' :: L', ?_⟩
        rw [if_pos ⟨rfl, hrP⟩]
        simp [List.append_assoc]

theorem chunksF_ne_nil (p : Nat) : ∀ l r, chunksF p l r ≠ [] := by
  intro l
  induction l with
  | nil => intro r; simp [chunksF]
  | cons v rest ih =>
    intro r
    cases rest with
    | nil => simp [chunksF]
    | cons w rest' =>
      by_cases hr : r = 1
      · simp [chunksF, hr]
      · simp only [chunksF, if_neg hr]
        cases h : chunksF p (w :: rest') (r - 1) <;> simp

theorem chunksF_head (p : Nat) (v : Nat) (rest : List Nat) (r : Nat) :
    ∃ c cs, chunksF p (v :: rest) r = (v :: c) :: cs := by
  cases rest with
  | nil => exact ⟨[], [], rfl⟩
  | cons w rest' =>
    by_cases hr : r = 1
    · exact ⟨[], chunksF p (w :: rest') p, by simp [chunksF, hr]⟩
    · obtain ⟨c0, cs0, h0⟩ :=
        List.exists_cons_of_ne_nil (chunksF_ne_nil p (w :: rest') (r - 1))
      exact ⟨c0, cs0, by simp [chunksF, if_neg hr, h0]⟩

theorem chunksF_join (p : Nat) : ∀ l r, (chunksF p l r).join = l := by
  intro l
  induction l with
  | nil => intro r; simp [chunksF]
  | cons v rest ih =>
    intro r
    cases rest with
    | nil => simp [chunksF]
    | cons w rest' =>
      by_cases hr : r = 1
      · simp [chunksF, hr, ih p]
      · obtain ⟨c0, cs0, h0⟩ :=
          List.exists_cons_of_ne_nil (chunksF_ne_nil p (w :: rest') (r - 1))
        have hj := ih (r - 1)
        rw [h0] at hj
        simp only [List.join_cons] at hj
        simp only [chunksF, if_neg hr, h0]
        simp [List.join_cons, hj]

/-- Splitting the offset-free, gutter-free export body on line breaks
yields exactly the per-line hex renderings of the chunks. -/
theorem obody_plain_split (p total : Nat) :
    ∀ vs i r, splitChar '\n' (obodyAux false p total vs i r) =
      (chunksF p vs r).map hexLine := by
  intro vs
  induction vs with
  | nil => intro i r; simp [obodyAux, chunksF, splitChar, hexLine]
  | cons v rest ih =>
    intro i r
    cases rest with
    | nil =>
      rw [obodyAux_single]
      rw [if_neg (by simp)]
      rw [List.nil_append]
      rw [splitChar_no_sep '\n' _ (not_nl_hexPair v)]
      simp [chunksF, hexLine]
    | cons w rest' =>
      rw [obodyAux_cons2]
      rw [if_neg (by simp), List.nil_append]
      by_cases hr : r = 1
      · rw [if_pos hr]
        rw [splitChar_append_sep '\n' _ _ (not_nl_hexPair v), ih (i + 1) p]
        simp [chunksF, hr, hexLine]
      · rw [if_neg hr]
        have hshape : padLeft '0' 2 (hexChars v) ++
              (' ' :: obodyAux false p total (w :: rest') (i + 1) (r - 1)) =
            (padLeft '0' 2 (hexChars v) ++ [' ']) ++
              obodyAux false p total (w :: rest') (i + 1) (r - 1) := by
          simp [List.append_assoc]
        rw [hshape]
        have hnons : '\n' ∉ padLeft '0' 2 (hexChars v) ++ [' '] := by
          intro hm
          rcases List.mem_append.mp hm with hm | hm
          · exact not_nl_hexPair v hm
          · exact absurd (List.mem_singleton.mp hm) (by decide)
        obtain ⟨h1, t1, hsplit1, heq1⟩ :=
          splitChar_append '\n' _ (obodyAux false p total (w :: rest') (i + 1) (r - 1)) hnons
        rw [heq1]
        obtain ⟨c0, cs0, h0⟩ := chunksF_head p w rest' (r - 1)
        rw [ih (i + 1) (r - 1), h0] at hsplit1
        simp only [List.map_cons] at hsplit1
        injection hsplit1 with hh ht
        subst hh
        subst ht
        simp only [chunksF, if_neg hr, h0, List.map_cons]
        rw [show hexLine (v :: w :: c0) =
              padLeft '0' 2 (hexChars v) ++ ' ' :: hexLine (w :: c0) from rfl]
        simp [List.append_assoc]

theorem hexPair_not_ws (v : Nat) :
    ∀ ch ∈ padLeft '0' 2 (hexChars v), rustIsWhitespace ch = false := by
  intro ch h
  rcases List.mem_append.mp h with h | h
  · rw [List.eq_of_mem_replicate h]
    decide
  · obtain ⟨d, hd⟩ := Option.isSome_iff_exists.mp (hexChars_digits v ch h)
    exact (toDigit16_facts hd).2.2.2.1

theorem trimChars_sandwich (a b : Char) (mid : List Char)
    (ha : rustIsWhitespace a = false) (hb : rustIsWhitespace b = false) :
    trimChars (a :: (mid ++ [b])) = a :: (mid ++ [b]) := by
  simp only [trimChars]
  rw [List.dropWhile_cons]
  simp only [ha, Bool.false_eq_true, if_false]
  rw [show a :: (mid ++ [b]) = (a :: mid) ++ [b] from rfl]
  rw [List.reverse_append]
  simp only [List.reverse_cons, List.reverse_nil, List.nil_append, List.singleton_append]
  rw [List.dropWhile_cons]
  simp only [hb, Bool.false_eq_true, if_false]
  simp

theorem hexLine_shape :
    ∀ rest (v : Nat), (∀ u ∈ v :: rest, u < 256) →
      ∃ a mid b, hexLine (v :: rest) = a :: (mid ++ [b]) ∧
        rustIsWhitespace a = false ∧ rustIsWhitespace b = false := by
  intro rest
  induction rest with
  | nil =>
    intro v hlt
    obtain ⟨a, b, hab⟩ := List.length_eq_two.mp
      (hexPair_facts v (hlt v (List.mem_cons_self v []))).2.2.1
    refine ⟨a, [], b, by simp [hexLine, hab], ?_, ?_⟩
    · exact hexPair_not_ws v a (by rw [hab]; simp)
    · exact hexPair_not_ws v b (by rw [hab]; simp)
  | cons w rest' ih =>
    intro v hlt
    obtain ⟨a, b, hab⟩ := List.length_eq_two.mp
      (hexPair_facts v (hlt v (List.mem_cons_self v _))).2.2.1
    obtain ⟨a', mid', b', hshape', _, hb'⟩ :=
      ih w (fun u hu => hlt u (List.mem_cons_of_mem _ hu))
    refine ⟨a, b :: ' ' :: a' :: mid', b', ?_, ?_, hb'⟩
    · rw [show hexLine (v :: w :: rest') =
            padLeft '0' 2 (hexChars v) ++ ' ' :: hexLine (w :: rest') from rfl,
          hab, hshape']
      simp
    · exact hexPair_not_ws v a (by rw [hab]; simp)

theorem hexLine_split :
    ∀ rest (v : Nat), splitChar ' ' (hexLine (v :: rest)) =
      (v :: rest).map (fun u => padLeft '0' 2 (hexChars u)) := by
  intro rest
  induction rest with
  | nil =>
    intro v
    exact splitChar_no_sep ' ' _ (not_sp_hexPair v)
  | cons w rest' ih =>
    intro v
    rw [show hexLine (v :: w :: rest') =
          padLeft '0' 2 (hexChars v) ++ ' ' :: hexLine (w :: rest') from rfl]
    rw [splitChar_append_sep ' ' _ _ (not_sp_hexPair v), ih w]
    simp

theorem importWords_all_pairs :
    ∀ (c : List Nat) wc i, (∀ u ∈ c, u < 256) →
      importWords wc i false (c.map (fun u => padLeft '0' 2 (hexChars u))) = some c := by
  intro c
  induction c with
  | nil => intros; rfl
  | cons u c' ih =>
    intro wc i hlt
    have hu : u < 256 := hlt u (List.mem_cons_self u c')
    obtain ⟨hlen2, hparse, _, _⟩ := hexPair_facts u hu
    rw [List.map_cons, importWords_cons]
    rw [if_neg (by omega), if_neg (by intro hcon; omega), if_pos hlen2]
    rw [if_neg (by intro hcon; exact absurd hcon.2 (by simp))]
    rw [hparse, ih wc (i + 1) (fun x hx => hlt x (List.mem_cons_of_mem _ hx))]
    simp [Nat.mod_eq_of_lt hu]

theorem importLine_hexLine :
    ∀ c : List Nat, (∀ u ∈ c, u < 256) → importLine (hexLine c) = some c := by
  intro c hc
  cases c with
  | nil => rfl
  | cons v rest =>
    obtain ⟨a, mid, b, hshape, ha, hb⟩ := hexLine_shape rest v hc
    simp only [importLine]
    rw [hshape, trimChars_sandwich a b mid ha hb, ← hshape, hexLine_split rest v]
    exact importWords_all_pairs (v :: rest) _ 0 hc

theorem importLines_hexLines :
    ∀ cs : List (List Nat), (∀ c ∈ cs, ∀ u ∈ c, u < 256) →
      importLines (cs.map hexLine) = some cs.join := by
  intro cs
  induction cs with
  | nil => intros; rfl
  | cons c cs' ih =>
    intro hlt
    rw [List.map_cons]
    rw [show importLines (hexLine c :: List.map hexLine cs')
          = match importLine (hexLine c), importLines (List.map hexLine cs') with
            | some a, some b => some (a ++ b)
            | _, _ => none from rfl]
    rw [importLine_hexLine c (hlt c (List.mem_cons_self c cs')),
        ih (fun x hx => hlt x (List.mem_cons_of_mem _ hx))]
    simp

/-- C1 (counterexample): `import` is not invariant under insertion of
extra interior spaces.  `import("aa bb")` yields both bytes, but after
inserting one more interior space the final two-character token is
skipped as a trailing annotation: `import("aa  bb")` yields only `AA`. -/
theorem c1_space_insertion_changes_result :
    importChars ['a', 'a', ' ', 'b', 'b'] = some [170, 187] ∧
    importChars ['a', 'a', ' ', ' ', 'b', 'b'] = some [170] := by
  decide

/-- C1 (amended): inserting extra interior spaces (empty words) at an
interior position of a line leaves the word-classification loop of
`import` unchanged, provided the line's last word does not have byte
length 2; otherwise the inserted padding can make the final
two-character word be skipped as a trailing annotation. -/
theorem c1_amended_space_insertion_invariance :
    ∀ (ws1 ws2 : List (List Char)) (w : List Char) (k : Nat),
      ws1 ≠ [] → ¬ utf8Len w = 2 →
      importWords (ws1 ++ List.replicate k [] ++ ws2 ++ [w]).length 0 false
          (ws1 ++ List.replicate k [] ++ ws2 ++ [w]) =
        importWords (ws1 ++ ws2 ++ [w]).length 0 false (ws1 ++ ws2 ++ [w]) := by
  intro ws1 ws2 w k h1 hw
  have al : ws1 ++ List.replicate k [] ++ ws2 ++ [w]
      = ws1 ++ (List.replicate k [] ++ (ws2 ++ [w])) := by
    simp [List.append_assoc]
  have ar : ws1 ++ ws2 ++ [w] = ws1 ++ (ws2 ++ [w]) := by
    simp [List.append_assoc]
  rw [al, ar,
      importWords_eq_S (ws1 ++ (List.replicate k [] ++ (ws2 ++ [w]))) _ 0 false (by simp),
      importWords_eq_S (ws1 ++ (ws2 ++ [w])) _ 0 false (by simp)]
  exact importWordsS_insert_pad k ws2 w hw ws1 _ _ h1

/-- C1 (witness for the amended theorem). -/
theorem c1_amended_witness :
    importWords ([[ 'a', 'a' ]] ++ List.replicate 1 ([] : List Char) ++ [[ 'b', 'b' ]]
        ++ [[ 'a', 'b', 'c' ]]).length 0 false
      ([[ 'a', 'a' ]] ++ List.replicate 1 ([] : List Char) ++ [[ 'b', 'b' ]]
        ++ [[ 'a', 'b', 'c' ]]) =
    importWords ([[ 'a', 'a' ]] ++ [[ 'b', 'b' ]] ++ [[ 'a', 'b', 'c' ]]).length 0 false
      ([[ 'a', 'a' ]] ++ [[ 'b', 'b' ]] ++ [[ 'a', 'b', 'c' ]]) :=
  c1_amended_space_insertion_invariance [[ 'a', 'a' ]] [[ 'b', 'b' ]] [ 'a', 'b', 'c' ] 1
    (by decide) (by decide)

/-- C6: a two-character word that fails the base-16 parse and is not
excused by the trailing-annotation rule — it is not the last word of its
line, or the padding flag (as tracked by `padFlagStep` over the earlier
words) is false when it is reached — makes the whole conversion fail
with no partial buffer. -/
theorem c6_malformed_token_fails :
    ∀ (data line : List Char) (ws1 : List (List Char)) (w : List Char)
      (ws2 : List (List Char)),
      line ∈ splitChar '\n' data →
      splitChar ' ' (trimChars line) = ws1 ++ w :: ws2 →
      utf8Len w = 2 → fromStrRadix16 w = none →
      (ws2 ≠ [] ∨ ws1.foldl padFlagStep false = false) →
      importChars data = none := by
  intro data line ws1 w ws2 hmem hsplit h2 hp hcond
  have hline : importLine line = none := by
    simp only [importLine]
    rw [hsplit]
    cases ws2 with
    | nil =>
      rcases hcond with hne | hflag
      · exact absurd rfl hne
      · rw [importWords_eq_S (ws1 ++ [w]) _ 0 false (by simp)]
        rw [importWordsS_snoc w h2 ws1 _ false]
        rw [hflag, if_neg (by simp), hp]
    | cons x xs =>
      exact importWords_bad_notlast ws1 w (x :: xs) _ 0 false (by simp) h2 hp (by simp)
  exact importLines_none_of_mem _ line hmem hline

/-- C6 (witness): `import("xx aa bb")` fails (the bad pair is not last),
and `import("aa  00 xx")` fails (the bad pair is last, but the parsed
`00` after the double space has reset the padding flag, so it is not
excused). -/
theorem c6_witness :
    importChars ['x', 'x', ' ', 'a', 'a', ' ', 'b', 'b'] = none ∧
    importChars ['a', 'a', ' ', ' ', '0', '0', ' ', 'x', 'x'] = none :=
  ⟨c6_malformed_token_fails ['x', 'x', ' ', 'a', 'a', ' ', 'b', 'b']
    ['x', 'x', ' ', 'a', 'a', ' ', 'b', 'b']
    [] ['x', 'x'] [['a', 'a'], ['b', 'b']]
    (by decide) (by decide) (by decide) (by decide) (Or.inl (by decide)),
   c6_malformed_token_fails ['a', 'a', ' ', ' ', '0', '0', ' ', 'x', 'x']
    ['a', 'a', ' ', ' ', '0', '0', ' ', 'x', 'x']
    [['a', 'a'], [], ['0', '0']] ['x', 'x'] []
    (by decide) (by decide) (by decide) (by decide) (Or.inr (by decide))⟩

/-- C7: a two-byte word `t` that ends a line is skipped exactly when the
padding flag — initialised false, set by each empty word, cleared by each
successfully parsed byte, and left alone by every other word (this is
`padFlagStep`) — is true when `t` is reached, even if `t` is valid
hexadecimal; otherwise `t` must parse and contributes the final byte. -/
theorem c7_trailing_skip_rule :
    ∀ (ws : List (List Char)) (t : List Char), utf8Len t = 2 →
      importWords (ws.length + 1) 0 false (ws ++ [t]) =
        if ws.foldl padFlagStep false = true then
          importWords (ws.length + 1) 0 false ws
        else
          match fromStrRadix16 t with
          | some v => (importWords (ws.length + 1) 0 false ws).map (fun bs => bs ++ [v % 256])
          | none => none := by
  intro ws t ht
  rw [importWords_eq_S (ws ++ [t]) (ws.length + 1) 0 false (by simp)]
  rw [importWords_eq_NL ws (ws.length + 1) 0 false (by omega)]
  exact importWordsS_snoc t ht ws _ false

/-- C7 (witness): with words `["aa", "", "bb"]` the flag is set at the
final valid-hex word `bb`, so it is skipped. -/
theorem c7_witness :
    utf8Len ['b', 'b'] = 2 ∧
    importWords 3 0 false ([['a', 'a'], []] ++ [['b', 'b']]) =
      (if [['a', 'a'], []].foldl padFlagStep false = true then
        importWords 3 0 false [['a', 'a'], []]
      else
        match fromStrRadix16 ['b', 'b'] with
        | some v => (importWords 3 0 false [['a', 'a'], []]).map (fun bs => bs ++ [v % 256])
        | none => none) :=
  ⟨by decide, c7_trailing_skip_rule [['a', 'a'], []] ['b', 'b'] (by decide)⟩

/-- C9: importing the empty string succeeds with an empty byte sequence;
a whitespace-only line anywhere contributes no bytes and no error; and
lines with fewer than three words (one or two bytes) are processed under
the same rules. -/
theorem c9_empty_and_whitespace :
    importChars [] = some [] ∧
    (∀ (ls1 : List (List Char)) (ws : List Char) (ls2 : List (List Char)),
      trimChars ws = [] → importLines (ls1 ++ ws :: ls2) = importLines (ls1 ++ ls2)) ∧
    importChars ['a', 'a'] = some [170] ∧
    importChars ['a', 'a', ' ', 'b', 'b'] = some [170, 187] := by
  refine ⟨by decide, ?_, by decide, by decide⟩
  intro ls1 ws ls2 htrim
  have hws : importLine ws = some [] := by
    simp only [importLine]
    rw [htrim]
    rfl
  induction ls1 with
  | nil =>
    simp only [List.nil_append]
    rw [show importLines (ws :: ls2)
          = match importLine ws, importLines ls2 with
            | some a, some b => some (a ++ b)
            | _, _ => none from rfl,
        hws]
    cases importLines ls2 <;> rfl
  | cons l ls1' ih =>
    simp only [List.cons_append]
    rw [show importLines (l :: (ls1' ++ ws :: ls2))
          = match importLine l, importLines (ls1' ++ ws :: ls2) with
            | some a, some b => some (a ++ b)
            | _, _ => none from rfl,
        show importLines (l :: (ls1' ++ ls2))
          = match importLine l, importLines (ls1' ++ ls2) with
            | some a, some b => some (a ++ b)
            | _, _ => none from rfl,
        ih]

/-- C9 (witness): a whitespace-only line contributes nothing. -/
theorem c9_witness : importLines ([[' ']] : List (List Char)) = importLines [] :=
  c9_empty_and_whitespace.2.1 [] [' '] [] (by decide)

/-- C10: a two-character token of a `+` sign followed by one hex digit is
accepted — `u64::from_str_radix` tolerates the leading sign — and the
digit's value is appended as a byte. -/
theorem c10_plus_sign_token :
    ∀ (c : Char) (v : Nat), toDigit16 c = some v →
      fromStrRadix16 ['+', c] = some v ∧ importChars ['+', c] = some [v] := by
  intro c v hc
  obtain ⟨hv16, hlo, hhi, hws, hsz⟩ := toDigit16_facts hc
  have hparse : fromStrRadix16 ['+', c] = some v := by
    rw [show fromStrRadix16 ['+', c] = parseDigits16 [c] from rfl]
    simp only [parseDigits16, List.foldl_cons, List.foldl_nil, hc]
    rw [if_pos (by omega)]
    rw [show 0 * 16 + v = v by omega]
  refine ⟨hparse, ?_⟩
  have hcnl : ('\n' : Char) ∉ ['+', c] := by
    intro hm
    rcases List.mem_cons.mp hm with h | hm
    · exact absurd h (by decide)
    · rcases List.mem_singleton.mp hm with h
      rw [← h] at hlo
      exact absurd hlo (by decide)
  have hcsp : (' ' : Char) ∉ ['+', c] := by
    intro hm
    rcases List.mem_cons.mp hm with h | hm
    · exact absurd h (by decide)
    · rcases List.mem_singleton.mp hm with h
      rw [← h] at hlo
      exact absurd hlo (by decide)
  have hlen : utf8Len ['+', c] = 2 := by
    have hplus : utf8SizeC '+' = 1 := by decide
    simp [utf8Len, hplus, hsz]
  simp only [importChars]
  rw [splitChar_no_sep '\n' _ hcnl]
  rw [show importLines [['+', c]]
        = match importLine ['+', c], importLines [] with
          | some a, some b => some (a ++ b)
          | _, _ => none from rfl]
  have hlineval : importLine ['+', c] = some [v] := by
    simp only [importLine]
    rw [show ('+' :: [c] : List Char) = '+' :: ([] ++ [c]) from rfl]
    rw [trimChars_sandwich '+' c [] (by decide) hws]
    rw [show ('+' :: ([] ++ [c]) : List Char) = ['+', c] from rfl]
    rw [splitChar_no_sep ' ' _ hcsp]
    rw [show ([['+', c]] : List (List Char)).length = 1 from rfl]
    rw [importWords_cons]
    rw [if_neg (by omega), if_neg (by intro hcon; omega), if_pos hlen]
    rw [if_neg (by intro hcon; exact absurd hcon.2 (by simp))]
    rw [hparse]
    rw [show importWords 1 (0 + 1) false [] = some [] from rfl]
    simp [Nat.mod_eq_of_lt (show v < 256 by omega)]
  rw [hlineval]
  rfl

/-- C10 (witness): `import("+f")` yields the single byte 15. -/
theorem c10_witness :
    fromStrRadix16 ['+', 'f'] = some 15 ∧ importChars ['+', 'f'] = some [15] :=
  c10_plus_sign_token 'f' 15 (by decide)

/-- C2 (counterexample): with `per_line == 0`, `export` panics (modulo by
zero) when offsets are enabled, and `export_to` panics (usize underflow
in the gutter flush) when the ASCII gutter is enabled; no
invalid-configuration error is surfaced. -/
theorem c2_per_line_zero_panics :
    export' [65] ⟨0, true, false⟩ = .panic ∧
    export_to ⟨[], none⟩ [65] ⟨0, false, true⟩ = .panic := by
  decide

/-- C2 (amended): `per_line == 0` is not guarded.  With offsets enabled
and nonempty input the first loop step evaluates `index % 0` and panics;
with the ASCII gutter enabled and nonempty input the final gutter flush
computes `0 - count` and panics; and no `ExportError` value — in
particular not `BadOptions` — is ever returned by `export_to`. -/
theorem c2_amended_per_line_zero_behavior :
    (∀ (v : Nat) (vs : List Nat) (b : Bool),
      export_to ⟨[], none⟩ (v :: vs) ⟨0, true, b⟩ = .panic) ∧
    (∀ (v : Nat) (vs : List Nat),
      export_to ⟨[], none⟩ (v :: vs) ⟨0, false, true⟩ = .panic) ∧
    (∀ (sink : Sink) (vs : List Nat) (opts : ExportOptions) (e : ExportError),
      export_to sink vs opts ≠ .err e) := by
  refine ⟨?_, ?_, ?_⟩
  · intro v vs b
    exact exportLoop_offsets_zero b (v :: vs).length 0 0 v vs [] ⟨[], none⟩
  · intro v vs
    exact exportLoop_ascii_zero (v :: vs).length vs v 0 0 [] [] (by omega)
  · intro sink vs opts e
    exact exportLoop_ne_err opts vs.length vs 0 0 [] sink e

/-- C2 (witness for the amended theorem). -/
theorem c2_amended_witness :
    export_to ⟨[], none⟩ [1] ⟨0, true, false⟩ = .panic ∧
    export_to ⟨[], none⟩ [1] ⟨0, false, true⟩ = .panic ∧
    export_to ⟨[], some 0⟩ [1] ⟨16, false, false⟩ ≠ .err .fmt :=
  ⟨c2_amended_per_line_zero_behavior.1 1 [] false,
   c2_amended_per_line_zero_behavior.2.1 1 [],
   c2_amended_per_line_zero_behavior.2.2 ⟨[], some 0⟩ [1] ⟨16, false, false⟩ .fmt⟩

/-- C3 (code behaviour at the failing input): against a sink whose first
write fails, `export_to` panics via `.unwrap()` instead of returning the
`ExportError::Fmt` sink-failure value. -/
theorem c3_sink_failure_panics :
    export_to ⟨[], some 0⟩ [0] ⟨16, false, false⟩ = .panic := by
  decide

/-- C4: for any byte sequence `B` and any `per_line > 0`, importing the
text of `export(B, {per_line, with_offsets: false, with_ascii: false})`
succeeds and yields exactly `B`. -/
theorem c4_round_trip :
    ∀ (B : List Nat) (p : Nat), 0 < p → (∀ v ∈ B, v < 256) →
      ∃ out, export' B ⟨p, false, false⟩ = .ok out ∧ importChars out = some B := by
  intro B p hp hB
  refine ⟨obodyAux false p B.length B 0 p, ?_, ?_⟩
  · unfold export'
    rw [export_to_no_ascii p false B hp]
  · unfold importChars
    rw [obody_plain_split p B.length B 0 p]
    rw [importLines_hexLines (chunksF p B p) ?mem]
    · rw [chunksF_join p B p]
    case mem =>
      intro c hc u hu
      have hjoin : u ∈ (chunksF p B p).join := List.mem_join.mpr ⟨c, hc, hu⟩
      rw [chunksF_join p B p] at hjoin
      exact hB u hjoin

/-- C4 (witness). -/
theorem c4_round_trip_witness :
    0 < 2 ∧ (∀ v ∈ ([0, 255] : List Nat), v < 256) ∧
    ∃ out, export' [0, 255] ⟨2, false, false⟩ = .ok out ∧
      importChars out = some [0, 255] :=
  ⟨by decide, by decide, c4_round_trip [0, 255] 2 (by decide) (by decide)⟩

/-- C5 (counterexample): when the total byte count exceeds 4294967295 the
offset field written by `write_offset` is the 16-wide SPACE-padded
`{:16X}` rendering, not a zero-padded one: at index 0 it writes fifteen
spaces, the digit `0` and the separating space. -/
theorem c5_wide_offset_space_padded :
    writeOffset ⟨[], none⟩ 0 4294967296 =
      some ⟨List.replicate 15 ' ' ++ ['0', ' '], none⟩ ∧
    padLeft ' ' 16 (hexChars 0) ≠ padLeft '0' 16 (hexChars 0) := by
  decide

/-- C5 (amended): every line of an offsets-enabled, gutter-free export
starts with the offset field of the width chosen from the total byte
count — zero-padded to 4 hex digits when the total is at most 65535,
zero-padded to 8 when at most 4294967295, and otherwise space-padded to
width 16 — followed by a single space. -/
theorem c5_amended_offset_field_shapes :
    ∀ (vs : List Nat) (p : Nat), 0 < p → vs ≠ [] →
      ∃ out, export_to ⟨[], none⟩ vs ⟨p, true, false⟩ = .ok ⟨out, none⟩ ∧
        ∀ line ∈ splitChar '\n' out, ∃ j, j < vs.length ∧ ∃ t,
          (if vs.length ≤ 65535 then padLeft '0' 4 (hexChars j)
           else if vs.length ≤ 4294967295 then padLeft '0' 8 (hexChars j)
           else padLeft ' ' 16 (hexChars j)) ++ [' '] ++ t = line := by
  intro vs p hp hne
  refine ⟨obodyAux true p vs.length vs 0 p, export_to_no_ascii p true vs hp, ?_⟩
  obtain ⟨L, Ls, hsplit, htail, hhead⟩ :=
    obody_lines p vs.length hp vs 0 p hne (by omega) (le_refl p) (by omega)
  intro line hline
  rw [hsplit] at hline
  rcases List.mem_cons.mp hline with rfl | hl
  · obtain ⟨j, hj, t, ht⟩ := hhead rfl
    exact ⟨j, hj, t, by rw [← ht]; simp [offsetField, List.append_assoc]⟩
  · obtain ⟨j, hj, t, ht⟩ := htail line hl
    exact ⟨j, hj, t, by rw [← ht]; simp [offsetField, List.append_assoc]⟩

/-- C5 (witness for the amended theorem). -/
theorem c5_amended_witness :
    0 < 1 ∧ ([0] : List Nat) ≠ [] ∧
    ∃ out, export_to ⟨[], none⟩ [0] ⟨1, true, false⟩ = .ok ⟨out, none⟩ ∧
      ∀ line ∈ splitChar '\n' out, ∃ j, j < ([0] : List Nat).length ∧ ∃ t,
        (if ([0] : List Nat).length ≤ 65535 then padLeft '0' 4 (hexChars j)
         else if ([0] : List Nat).length ≤ 4294967295 then padLeft '0' 8 (hexChars j)
         else padLeft ' ' 16 (hexChars j)) ++ [' '] ++ t = line :=
  ⟨by decide, by decide, c5_amended_offset_field_shapes [0] 1 (by decide) (by decide)⟩

/-- C8: exporting exactly 70000 bytes with offsets enabled gives every
line an offset field of exactly 8 hex digits (so its fifth character is
still a digit, not the separator a 4-digit field would put there),
followed by a single space. -/
theorem c8_offset_width_70000 :
    ∀ (vs : List Nat) (p : Nat), vs.length = 70000 → 0 < p →
      ∃ out, export_to ⟨[], none⟩ vs ⟨p, true, false⟩ = .ok ⟨out, none⟩ ∧
        ∀ line ∈ splitChar '\n' out, ∃ j,
          (padLeft '0' 8 (hexChars j)).length = 8 ∧
          (∀ ch ∈ padLeft '0' 8 (hexChars j), (toDigit16 ch).isSome = true) ∧
          ∃ t, padLeft '0' 8 (hexChars j) ++ [' '] ++ t = line := by
  intro vs p hlen hp
  have hne : vs ≠ [] := by
    intro h
    rw [h] at hlen
    simp at hlen
  refine ⟨obodyAux true p vs.length vs 0 p, export_to_no_ascii p true vs hp, ?_⟩
  obtain ⟨L, Ls, hsplit, htail, hhead⟩ :=
    obody_lines p vs.length hp vs 0 p hne (by omega) (le_refl p) (by omega)
  have hfield : ∀ j, j < vs.length →
      offsetField vs.length j = padLeft '0' 8 (hexChars j) ++ [' '] ∧
      (padLeft '0' 8 (hexChars j)).length = 8 ∧
      (∀ ch ∈ padLeft '0' 8 (hexChars j), (toDigit16 ch).isSome = true) := by
    intro j hj
    have h1 : ¬ vs.length ≤ 65535 := by omega
    have h2 : vs.length ≤ 4294967295 := by omega
    refine ⟨by simp [offsetField, h1, h2], ?_, ?_⟩
    · have h16 : (16 : Nat) ^ 8 = 4294967296 := by norm_num
      have hlen8 : (hexChars j).length ≤ 8 :=
        hexChars_length_le 8 j (by omega) (by omega)
      exact padLeft_length '0' hlen8
    · intro ch hch
      rcases List.mem_append.mp hch with h | h
      · rw [List.eq_of_mem_replicate h]
        decide
      · exact hexChars_digits j ch h
  intro line hline
  rw [hsplit] at hline
  rcases List.mem_cons.mp hline with rfl | hl
  · obtain ⟨j, hj, t, ht⟩ := hhead rfl
    obtain ⟨hf, hl8, hdig⟩ := hfield j hj
    exact ⟨j, hl8, hdig, t, by rw [← ht, hf]⟩
  · obtain ⟨j, hj, t, ht⟩ := htail line hl
    obtain ⟨hf, hl8, hdig⟩ := hfield j hj
    exact ⟨j, hl8, hdig, t, by rw [← ht, hf]⟩

/-- C8 (witness). -/
theorem c8_witness :
    (List.replicate 70000 (0 : Nat)).length = 70000 ∧ 0 < 16 ∧
    ∃ out, export_to ⟨[], none⟩ (List.replicate 70000 (0 : Nat)) ⟨16, true, false⟩
        = .ok ⟨out, none⟩ ∧
      ∀ line ∈ splitChar '\n' out, ∃ j,
        (padLeft '0' 8 (hexChars j)).length = 8 ∧
        (∀ ch ∈ padLeft '0' 8 (hexChars j), (toDigit16 ch).isSome = true) ∧
        ∃ t, padLeft '0' 8 (hexChars j) ++ [' '] ++ t = line :=
  ⟨by rw [List.length_replicate], by decide,
   c8_offset_width_70000 (List.replicate 70000 0) 16 (by rw [List.length_replicate])
     (by decide)⟩
